import Mathlib

/-!
Verification of the ownership and synchronization primitives of the
`rusty-crust` repository: `Cell` (cell.rs), `RefCell` with its `Ref` /
`RefMut` guards (refcell.rs), `Rc` (rc.rs) and the spin-lock `Mutex`
(atomics/mutex.rs).  Each Rust type is shallowly embedded as an explicit
state-passing Lean model; `usize` arithmetic is modelled as `Nat` with an
explicit `% 2 ^ 64` wherever the source performs unchecked arithmetic on
a counter.
-/

/-- Width of `usize` values: the counters in the source are `usize`, whose
unchecked `+`/`-` wrap modulo `2 ^ 64` (release-profile semantics). -/
def USIZE : Nat := 2 ^ 64

/-! ## Cell (src/cell.rs)

`Cell<T>` wraps a single payload in an `UnsafeCell`; `set` overwrites it
through a shared reference and `get` copies it out.  The model carries the
payload explicitly: `set` is whole-value replacement, `get` is copy-out.
The `T: Copy` bound on `get` is a Rust capability restriction with no
semantic content once values are modelled as Lean values. -/

structure Cell (α : Type) where
  value : α
deriving Repr, DecidableEq

/-- Model of `Cell::new`. -/
def Cell.new (v : α) : Cell α := ⟨v⟩

/-- Model of `Cell::set`: unconditionally overwrites the payload. -/
def Cell.set (_c : Cell α) (v : α) : Cell α := ⟨v⟩

/-- Model of `Cell::get`: returns a duplicate of the current payload. -/
def Cell.get (c : Cell α) : α := c.value

/-! ## RefCell (src/refcell.rs)

The borrow tracker.  `RefCell<T>` holds the payload in an `UnsafeCell`
and the borrow state in a `Cell<RefState>`; the model flattens both into
one record.  `borrow` / `borrow_mut` return the optional guard together
with the post-call cell (the source mutates `self.state` in place, so the
cell after a failed call is returned unchanged).  A guard is carried as
`Unit` evidence: the Rust guards hold only a reference back to the
`RefCell`, so dereferencing and dropping a guard are modelled as
operations on the cell itself. -/

/-- Model of `RefState` (refcell.rs): the borrow state of a `RefCell`. -/
inductive RefState where
  | Unshared : RefState
  | Shared : Nat → RefState
  | Exclusive : RefState
deriving Repr, DecidableEq

structure RefCell (α : Type) where
  value : α
  state : RefState
deriving Repr, DecidableEq

/-- Model of `RefCell::new`: payload with state `Unshared`. -/
def RefCell.new (v : α) : RefCell α := ⟨v, RefState.Unshared⟩

/-- Model of `RefCell::borrow`.  `Unshared ↦ Shared(1)`,
`Shared(n) ↦ Shared(n + 1)` (unchecked `usize` increment, hence the
explicit wrap), both yielding a guard; `Exclusive` yields `none` and the
source performs no write to `state`, so the cell is returned unchanged. -/
def RefCell.borrow (c : RefCell α) : Option Unit × RefCell α :=
  match c.state with
  | RefState.Unshared => (some (), { c with state := RefState.Shared 1 })
  | RefState.Shared n => (some (), { c with state := RefState.Shared ((n + 1) % USIZE) })
  | RefState.Exclusive => (none, c)

/-- Model of `RefCell::borrow_mut`.  Only `Unshared ↦ Exclusive` succeeds;
any other state yields `none` with the cell unchanged. -/
def RefCell.borrow_mut (c : RefCell α) : Option Unit × RefCell α :=
  match c.state with
  | RefState.Unshared => (some (), { c with state := RefState.Exclusive })
  | RefState.Shared _ => (none, c)
  | RefState.Exclusive => (none, c)

/-- Model of `Drop for Ref` (refcell.rs): `Shared(1) ↦ Unshared`,
`Shared(n) ↦ Shared(n - 1)` (wrapping `usize` subtraction, matched after
the `Shared(1)` arm), and the `Exclusive | Unshared` arm is
`unreachable!()` — a fatal logic error, modelled as `none`. -/
def Ref.drop (c : RefCell α) : Option (RefCell α) :=
  match c.state with
  | RefState.Shared 1 => some { c with state := RefState.Unshared }
  | RefState.Shared n => some { c with state := RefState.Shared ((n + (USIZE - 1)) % USIZE) }
  | RefState.Exclusive => none
  | RefState.Unshared => none

/-- Model of `Drop for RefMut`: `Exclusive ↦ Unshared`; the
`Shared(_) | Unshared` arm is `unreachable!()`, modelled as `none`. -/
def RefMut.drop (c : RefCell α) : Option (RefCell α) :=
  match c.state with
  | RefState.Exclusive => some { c with state := RefState.Unshared }
  | RefState.Shared _ => none
  | RefState.Unshared => none

/-- Model of `Deref for Ref`: reads the shared payload. -/
def Ref.deref (c : RefCell α) : α := c.value

/-- Model of `Deref for RefMut`: reads the payload. -/
def RefMut.deref (c : RefCell α) : α := c.value

/-- Model of writing through `DerefMut for RefMut` (`*guard = v`). -/
def RefMut.write (c : RefCell α) (v : α) : RefCell α := { c with value := v }

/-! ## Rc (src/rc.rs)

`Rc<T>` is a `NonNull` pointer to a heap-allocated `RcInner<T>` holding
the payload and a `Cell<usize>` refcount.  The heap is modelled
explicitly as a list of blocks addressed by index; a deallocated block is
`none`.  A handle is the address of its inner block.  Dereferencing,
cloning or dropping a handle whose block has been deallocated is
undefined behaviour in the source; the model makes it an explicit `none`
(stuck) outcome.  The refcount is a `usize`: as with the `RefCell`
borrow counter, it is carried as a `Nat` and every unchecked arithmetic
step the source performs on it wraps modulo `2 ^ 64` at the operation
site (the increment in `clone`; the decrement in `drop` is only reached
behind the `refcount == 1` test, where for the representable counts
`2 ≤ n < 2 ^ 64` the `Nat` subtraction `n - 1` coincides with the
`usize` result). -/

/-- Model of `RcInner` (rc.rs): payload plus the `Cell<usize>` refcount,
carried as a `Nat` whose arithmetic is wrapped at the operation sites. -/
structure RcInner (α : Type) where
  value : α
  refcount : Nat
deriving Repr, DecidableEq

/-- The heap of inner blocks: index = address, `none` = deallocated. -/
abbrev RcHeap (α : Type) := List (Option (RcInner α))

/-- Model of an `Rc` handle: the address of its inner block. -/
structure Rc where
  inner : Nat
deriving Repr, DecidableEq

/-- Model of `Rc::new`: allocates one fresh inner block with refcount 1
and returns a handle to it. -/
def Rc.new (h : RcHeap α) (v : α) : Rc × RcHeap α :=
  (⟨h.length⟩, h ++ [some ⟨v, 1⟩])

/-- Model of `Deref for Rc`: reads the payload of the inner block.
`none` marks the use-after-free case, which the source leaves undefined. -/
def Rc.deref (h : RcHeap α) (r : Rc) : Option α :=
  match h[r.inner]? with
  | some (some b) => some b.value
  | _ => none

/-- Model of `Clone for Rc`: increments the inner block's refcount
(unchecked `usize` increment, hence the explicit wrap) and returns a
handle to the same address; no allocation happens. -/
def Rc.clone (h : RcHeap α) (r : Rc) : Option (Rc × RcHeap α) :=
  match h[r.inner]? with
  | some (some b) =>
      some (⟨r.inner⟩, h.set r.inner (some ⟨b.value, (b.refcount + 1) % USIZE⟩))
  | _ => none

/-- Model of `Drop for Rc`: if the refcount read is 1 the inner block is
deallocated (`Box::from_raw`), otherwise only the refcount is
decremented (on the representable counts `2 ≤ n < 2 ^ 64` reached here,
the `Nat` subtraction `n - 1` is exactly the `usize` decrement). -/
def Rc.dropHandle (h : RcHeap α) (r : Rc) : Option (RcHeap α) :=
  match h[r.inner]? with
  | some (some b) =>
      if b.refcount = 1 then some (h.set r.inner none)
      else some (h.set r.inner (some ⟨b.value, b.refcount - 1⟩))
  | _ => none

/-! ### Traces of Rc operations

Single-threaded client code can create a first handle (`new`), clone an
existing live handle, or drop a handle it owns.  A trace state is the
heap together with the multiset of live handles (kept as a list; an
operation designates a handle by its position). -/

/-- One client-side operation on `Rc` handles. -/
inductive RcOp (α : Type) where
  | new : α → RcOp α
  | clone : Nat → RcOp α
  | drop : Nat → RcOp α
deriving Repr, DecidableEq

/-- Heap plus list of live handle addresses. -/
structure RcState (α : Type) where
  heap : RcHeap α
  handles : List Nat
deriving Repr, DecidableEq

/-- The empty initial state: no allocation, no live handle. -/
def RcState.init (α : Type) : RcState α := ⟨[], []⟩

/-- Number of occurrences of address `a` in a list of handle addresses. -/
def countAddr (l : List Nat) (a : Nat) : Nat :=
  match l with
  | [] => 0
  | x :: t => (if x = a then 1 else 0) + countAddr t a

/-- Number of live handles pointing at address `a`. -/
def RcState.liveCount (s : RcState α) (a : Nat) : Nat := countAddr s.handles a

/-- One step of a trace: `new` appends a fresh block and handle, `clone i`
clones the `i`-th live handle, `drop i` drops it (running `Drop for Rc`).
`none` means the operation was ill-formed (no such handle) or hit
undefined behaviour (its block already deallocated). -/
def RcState.step (s : RcState α) (op : RcOp α) : Option (RcState α) :=
  match op with
  | RcOp.new v => some ⟨(Rc.new s.heap v).2, s.handles ++ [(Rc.new s.heap v).1.inner]⟩
  | RcOp.clone i =>
      match s.handles[i]? with
      | some a =>
          match Rc.clone s.heap ⟨a⟩ with
          | some rh => some ⟨rh.2, s.handles ++ [rh.1.inner]⟩
          | none => none
      | none => none
  | RcOp.drop i =>
      match s.handles[i]? with
      | some a =>
          match Rc.dropHandle s.heap ⟨a⟩ with
          | some h => some ⟨h, s.handles.eraseIdx i⟩
          | none => none
      | none => none

/-- Run a whole trace from a state. -/
def RcState.run (s : RcState α) (ops : List (RcOp α)) : Option (RcState α) :=
  match ops with
  | [] => some s
  | op :: rest =>
      match RcState.step s op with
      | some s' => RcState.run s' rest
      | none => none

/-- The refcount invariant: every live handle points into the heap, every
live block's refcount equals the number of live handles aliasing it (and
is at least 1), and a deallocated block has no live handle pointing at it
(so it can never be accessed again: every access goes through a live
handle). -/
def RcState.inv (s : RcState α) : Prop :=
  (∀ x ∈ s.handles, x < s.heap.length) ∧
  (∀ a b, s.heap[a]? = some (some b) → b.refcount = s.liveCount a ∧ 1 ≤ b.refcount) ∧
  (∀ a, s.heap[a]? = some none → s.liveCount a = 0)

/-! ## Mutex (src/atomics/mutex.rs)

The spin lock.  `with_lock` loops on
`compare_exchange_weak(UNLOCKED, LOCKED, AcqRel, Relaxed)`, runs the
closure on `&mut T` once the swap succeeds, then stores `UNLOCKED` with
`Release` ordering.  The concurrent execution is modelled as a
nondeterministic interleaving of atomic steps, one scheduled thread step
at a time; the `Acquire`/`Release` pairing on the flag is what licenses
treating the payload accesses of consecutive critical sections as
sequentially consistent, so cross-thread visibility of the payload is
represented by a single shared `v` field.  Failed or spurious CAS
attempts and the relaxed spin reads do not change any state and are
omitted as stutter steps.

Each thread performs `M` iterations of `with_lock(|v| *v += 1)`.  The
closure's read-modify-write is split into two separate steps (a read
into a thread-local register, then the write of `register + 1`), so that
a lost-update race is expressible in the model and its absence really
depends on the mutual-exclusion discipline of the flag. -/

/-- Program counter of one thread inside `with_lock(|v| *v += 1)`:
`idle` = outside (between iterations), `rd` = lock held, about to read
the payload, `wr t` = lock held, read value `t`, about to store `t + 1`,
`unl` = lock held, payload written, about to store `UNLOCKED`. -/
inductive ThreadPc where
  | idle : ThreadPc
  | rd : ThreadPc
  | wr : Nat → ThreadPc
  | unl : ThreadPc
deriving Repr, DecidableEq

/-- One thread: number of completed iterations plus program counter. -/
structure ThreadSt where
  done : Nat
  pc : ThreadPc
deriving Repr, DecidableEq

/-- Global state: the atomic flag, the protected counter, all threads. -/
structure MutexSt where
  locked : Bool
  v : Nat
  threads : List ThreadSt
deriving Repr, DecidableEq

/-- Sum of a per-thread weight over the thread list. -/
def sumBy (f : ThreadSt → Nat) : List ThreadSt → Nat
  | [] => 0
  | t :: ts => f t + sumBy f ts

/-- Weight 1 for threads inside the critical section (lock held). -/
def csWeight (t : ThreadSt) : Nat :=
  match t.pc with
  | ThreadPc.idle => 0
  | _ => 1

/-- Weight 1 for threads that incremented but have not yet unlocked. -/
def unlWeight (t : ThreadSt) : Nat :=
  match t.pc with
  | ThreadPc.unl => 1
  | _ => 0

/-- One interleaving step, scheduling thread `i`.  `acquire` is a
successful `compare_exchange_weak` of the flag from `UNLOCKED` to
`LOCKED` (it can only fire while the flag is free); `readv` and `writev`
are the two halves of `*v += 1` performed by the lock holder; `release`
is the `Release` store of `UNLOCKED` ending the iteration. -/
inductive MutexStep (M : Nat) : MutexSt → MutexSt → Prop where
  | acquire (s : MutexSt) (i d : Nat)
      (ht : s.threads[i]? = some ⟨d, ThreadPc.idle⟩) (hd : d < M)
      (hl : s.locked = false) :
      MutexStep M s ⟨true, s.v, s.threads.set i ⟨d, ThreadPc.rd⟩⟩
  | readv (s : MutexSt) (i d : Nat)
      (ht : s.threads[i]? = some ⟨d, ThreadPc.rd⟩) :
      MutexStep M s ⟨s.locked, s.v, s.threads.set i ⟨d, ThreadPc.wr s.v⟩⟩
  | writev (s : MutexSt) (i d t : Nat)
      (ht : s.threads[i]? = some ⟨d, ThreadPc.wr t⟩) :
      MutexStep M s ⟨s.locked, t + 1, s.threads.set i ⟨d, ThreadPc.unl⟩⟩
  | release (s : MutexSt) (i d : Nat)
      (ht : s.threads[i]? = some ⟨d, ThreadPc.unl⟩) :
      MutexStep M s ⟨false, s.v, s.threads.set i ⟨d + 1, ThreadPc.idle⟩⟩

/-- States reachable from `N` idle threads, a free lock and counter 0 by
any interleaving of thread steps. -/
inductive MutexReach (N M : Nat) : MutexSt → Prop where
  | init : MutexReach N M ⟨false, 0, List.replicate N ⟨0, ThreadPc.idle⟩⟩
  | step (s s' : MutexSt) : MutexReach N M s → MutexStep M s s' → MutexReach N M s'

/-- Inductive invariant of the spin lock: thread count is `N`, the
counter equals completed increments plus pending unlock-stage writes, at
most one thread is in the critical section, the flag is set exactly when
one is, and a thread that has read the payload into its register read
the current value. -/
def MutexInv (N : Nat) (s : MutexSt) : Prop :=
  s.threads.length = N ∧
  s.v = sumBy ThreadSt.done s.threads + sumBy unlWeight s.threads ∧
  sumBy csWeight s.threads ≤ 1 ∧
  (s.locked = true ↔ sumBy csWeight s.threads = 1) ∧
  (∀ (i d t : Nat), s.threads[i]? = some ⟨d, ThreadPc.wr t⟩ → t = s.v)

/-! ## Helper lemmas on wrapped `usize` arithmetic -/

theorem usize_add_one_mod (n : Nat) (h : n + 1 < USIZE) : (n + 1) % USIZE = n + 1 :=
  Nat.mod_eq_of_lt h

theorem usize_sub_one_mod (n : Nat) (h1 : 1 ≤ n) (h2 : n < USIZE) :
    (n + (USIZE - 1)) % USIZE = n - 1 := by
  have hU : 1 ≤ USIZE := by norm_num [USIZE]
  have h3 : n + (USIZE - 1) = (n - 1) + USIZE := by omega
  rw [h3, Nat.add_mod_right, Nat.mod_eq_of_lt (by omega)]

/-! ## Claims about Cell and RefCell -/

/-- C8: for every payload `v`, `Cell::set(v)` unconditionally overwrites
the payload with no observable side effect beyond the overwrite (the
post-state is exactly the cell freshly holding `v`), and a subsequent
`Cell::get()` returns `v`. -/
theorem cell_set_get_roundtrip (c : Cell α) (v : α) :
    Cell.get (Cell.set c v) = v ∧ Cell.set c v = Cell.new v :=
  ⟨rfl, rfl⟩

/-- C3: `borrow` fails (returns `none`, a value rather than a fault)
exactly in state `Exclusive`, and `borrow_mut` fails exactly when the
state is not `Unshared`; in every other state the call succeeds and
yields a guard. -/
theorem borrow_failure_conditions (c : RefCell α) :
    ((RefCell.borrow c).1 = none ↔ c.state = RefState.Exclusive) ∧
    ((RefCell.borrow_mut c).1 = none ↔ c.state ≠ RefState.Unshared) := by
  obtain ⟨v, st⟩ := c
  cases st <;> simp [RefCell.borrow, RefCell.borrow_mut]

/-- Witness for `borrow_failure_conditions` at concrete cells. -/
theorem borrow_failure_conditions_witness :
    (RefCell.borrow (⟨0, RefState.Exclusive⟩ : RefCell Nat)).1 = none ∧
    (RefCell.borrow_mut (⟨0, RefState.Shared 1⟩ : RefCell Nat)).1 = none :=
  ⟨(borrow_failure_conditions ⟨0, RefState.Exclusive⟩).1.mpr rfl,
   (borrow_failure_conditions ⟨0, RefState.Shared 1⟩).2.mpr (by decide)⟩

/-- C9: a failed borrow is atomic: whenever `borrow` or `borrow_mut`
returns `none`, the whole cell (borrow state and payload) is exactly as
before the call, so later calls behave as if the failed call never
happened. -/
theorem failed_borrow_is_atomic (c : RefCell α) :
    ((RefCell.borrow c).1 = none → (RefCell.borrow c).2 = c) ∧
    ((RefCell.borrow_mut c).1 = none → (RefCell.borrow_mut c).2 = c) := by
  obtain ⟨v, st⟩ := c
  cases st <;> simp [RefCell.borrow, RefCell.borrow_mut]

/-- Witness for `failed_borrow_is_atomic` at concrete cells. -/
theorem failed_borrow_is_atomic_witness :
    (RefCell.borrow (⟨5, RefState.Exclusive⟩ : RefCell Nat)).2 = ⟨5, RefState.Exclusive⟩ ∧
    (RefCell.borrow_mut (⟨5, RefState.Shared 2⟩ : RefCell Nat)).2 = ⟨5, RefState.Shared 2⟩ :=
  ⟨(failed_borrow_is_atomic ⟨5, RefState.Exclusive⟩).1 rfl,
   (failed_borrow_is_atomic ⟨5, RefState.Shared 2⟩).2 rfl⟩

/-- C2: the borrow state machine takes exactly the specified transitions:
`borrow` sends `Unshared` to `Shared 1` and `Shared n` to `Shared (n+1)`
(below the `usize` wrap, which is the subject of the overflow claim),
each yielding a guard; `borrow_mut` sends `Unshared` to `Exclusive`
yielding a guard; dropping a `Ref` sends `Shared 1` to `Unshared` and
`Shared n` (`1 < n`) to `Shared (n-1)`; dropping a `RefMut` sends
`Exclusive` to `Unshared`; a guard release observed in any other state is
the `unreachable!()` fatal logic error, modelled as `none`. -/
theorem borrow_state_machine (c : RefCell α) :
    (c.state = RefState.Unshared →
      RefCell.borrow c = (some (), { c with state := RefState.Shared 1 })) ∧
    (∀ n : Nat, c.state = RefState.Shared n → n + 1 < USIZE →
      RefCell.borrow c = (some (), { c with state := RefState.Shared (n + 1) })) ∧
    (c.state = RefState.Unshared →
      RefCell.borrow_mut c = (some (), { c with state := RefState.Exclusive })) ∧
    (c.state = RefState.Shared 1 →
      Ref.drop c = some { c with state := RefState.Unshared }) ∧
    (∀ n : Nat, c.state = RefState.Shared n → 1 < n → n < USIZE →
      Ref.drop c = some { c with state := RefState.Shared (n - 1) }) ∧
    (c.state = RefState.Exclusive →
      RefMut.drop c = some { c with state := RefState.Unshared }) ∧
    ((c.state = RefState.Exclusive ∨ c.state = RefState.Unshared) → Ref.drop c = none) ∧
    (c.state ≠ RefState.Exclusive → RefMut.drop c = none) := by
  obtain ⟨v, st⟩ := c
  refine ⟨?_, ?_, ?_, ?_, ?_, ?_, ?_, ?_⟩
  · rintro rfl; rfl
  · rintro n rfl hlt
    simp [RefCell.borrow, usize_add_one_mod n hlt]
  · rintro rfl; rfl
  · rintro rfl; rfl
  · rintro n rfl h1 h2
    match n, h1 with
    | m + 2, _ =>
      show some (⟨v, RefState.Shared ((m + 2 + (USIZE - 1)) % USIZE)⟩ : RefCell α) = _
      rw [usize_sub_one_mod (m + 2) (by omega) h2]
  · rintro rfl; rfl
  · rintro (rfl | rfl) <;> rfl
  · intro h
    cases st with
    | Unshared => rfl
    | Shared n => rfl
    | Exclusive => exact absurd rfl h

/-- Witness for `borrow_state_machine` at concrete cells and counts. -/
theorem borrow_state_machine_witness :
    RefCell.borrow (⟨0, RefState.Shared 2⟩ : RefCell Nat) = (some (), ⟨0, RefState.Shared 3⟩) ∧
    Ref.drop (⟨0, RefState.Shared 2⟩ : RefCell Nat) = some ⟨0, RefState.Shared 1⟩ ∧
    RefMut.drop (⟨0, RefState.Shared 2⟩ : RefCell Nat) = none ∧
    RefCell.borrow (⟨0, RefState.Unshared⟩ : RefCell Nat) = (some (), ⟨0, RefState.Shared 1⟩) :=
  ⟨(borrow_state_machine ⟨0, RefState.Shared 2⟩).2.1 2 rfl (by norm_num [USIZE]),
   (borrow_state_machine ⟨0, RefState.Shared 2⟩).2.2.2.2.1 2 rfl (by norm_num)
     (by norm_num [USIZE]),
   (borrow_state_machine ⟨0, RefState.Shared 2⟩).2.2.2.2.2.2.2 (by decide),
   (borrow_state_machine ⟨0, RefState.Unshared⟩).1 rfl⟩

/-- C7: writing `x` through a `RefMut` guard obtained from `borrow_mut`,
releasing the guard, then reading through a fresh `Ref` guard obtained
from `borrow` observes `x`. -/
theorem refmut_write_visibility (c : RefCell α) (x : α)
    (h : (RefCell.borrow_mut c).1 = some ()) :
    ∃ c3 : RefCell α,
      RefMut.drop (RefMut.write (RefCell.borrow_mut c).2 x) = some c3 ∧
      (RefCell.borrow c3).1 = some () ∧
      Ref.deref (RefCell.borrow c3).2 = x := by
  obtain ⟨v, st⟩ := c
  cases st
  · exact ⟨⟨x, RefState.Unshared⟩, rfl, rfl, rfl⟩
  · simp [RefCell.borrow_mut] at h
  · simp [RefCell.borrow_mut] at h

/-- Witness for `refmut_write_visibility` on a fresh cell. -/
theorem refmut_write_visibility_witness :
    ∃ c3 : RefCell Nat,
      RefMut.drop (RefMut.write (RefCell.borrow_mut (RefCell.new 0)).2 42) = some c3 ∧
      (RefCell.borrow c3).1 = some () ∧
      Ref.deref (RefCell.borrow c3).2 = 42 :=
  refmut_write_visibility (RefCell.new 0) 42 rfl

/-- C10: the shared-borrow counter is not defended against overflow: in
state `Shared (usize::MAX)` the unchecked `n + 1` wraps, so `borrow`
succeeds and produces `Shared 0`, breaking the `n ≥ 1` shape of the
`Shared` state; guard bookkeeping is then unsound — a subsequent `Ref`
release from `Shared 0` wraps back up to `Shared (usize::MAX)` instead of
retiring a borrow. -/
theorem shared_count_overflow (v : α) :
    RefCell.borrow ⟨v, RefState.Shared (USIZE - 1)⟩ = (some (), ⟨v, RefState.Shared 0⟩) ∧
    Ref.drop ⟨v, RefState.Shared 0⟩ = some ⟨v, RefState.Shared (USIZE - 1)⟩ := by
  constructor
  · show (some (), (⟨v, RefState.Shared ((USIZE - 1 + 1) % USIZE)⟩ : RefCell α)) = _
    norm_num [USIZE]
  · show some (⟨v, RefState.Shared ((0 + (USIZE - 1)) % USIZE)⟩ : RefCell α) = _
    norm_num [USIZE]

/-! ## Claims about Rc -/

/-- C5: `Rc::new` allocates one inner block with refcount 1 and the new
handle dereferences to the payload; `clone` increments that block's
refcount by exactly 1 (below the `usize` wrap, which the source does not
defend against), returns a handle aliasing the same address and
allocates nothing; in the concrete scenario `a = new v; b = a.clone()`
both handles dereference to `v`, and after dropping `a` the handle `b`
still dereferences to `v`. -/
theorem rc_new_clone_aliasing (h : RcHeap α) (v : α) (r : Rc) (b : RcInner α) :
    (Rc.new h v).2[(Rc.new h v).1.inner]? = some (some ⟨v, 1⟩) ∧
    Rc.deref (Rc.new h v).2 (Rc.new h v).1 = some v ∧
    (h[r.inner]? = some (some b) → b.refcount + 1 < USIZE →
      Rc.clone h r = some (⟨r.inner⟩, h.set r.inner (some ⟨b.value, b.refcount + 1⟩)) ∧
      (h.set r.inner (some ⟨b.value, b.refcount + 1⟩)).length = h.length ∧
      Rc.deref (h.set r.inner (some ⟨b.value, b.refcount + 1⟩)) ⟨r.inner⟩ = some b.value) ∧
    (Rc.clone [some ⟨v, 1⟩] ⟨0⟩ = some (⟨0⟩, [some ⟨v, 2⟩]) ∧
      Rc.deref [some ⟨v, 2⟩] ⟨0⟩ = some v ∧
      Rc.dropHandle [some ⟨v, 2⟩] ⟨0⟩ = some [some ⟨v, 1⟩] ∧
      Rc.deref [some ⟨v, 1⟩] ⟨0⟩ = some v) := by
  refine ⟨?_, ?_, ?_, rfl, rfl, rfl, rfl⟩
  · exact List.getElem?_concat_length h (some ⟨v, 1⟩)
  · show Rc.deref (h ++ [some ⟨v, 1⟩]) ⟨h.length⟩ = some v
    simp [Rc.deref, List.getElem?_concat_length]
  · intro hb hno
    have hlt : r.inner < h.length := by
      by_contra hge
      rw [List.getElem?_eq_none (by omega)] at hb
      exact Option.noConfusion hb
    refine ⟨?_, by simp, ?_⟩
    · simp [Rc.clone, hb, Nat.mod_eq_of_lt hno]
    · simp [Rc.deref, List.getElem?_set_self hlt]

/-- Witness for `rc_new_clone_aliasing` on a one-block heap. -/
theorem rc_new_clone_aliasing_witness :
    Rc.clone [some ⟨(7 : Nat), 1⟩] ⟨0⟩ =
      some (⟨0⟩, [some ⟨(7 : Nat), 1 + 1⟩]) :=
  ((rc_new_clone_aliasing [some ⟨(7 : Nat), 1⟩] 7 ⟨0⟩ ⟨7, 1⟩).2.2.1 rfl
    (by norm_num [USIZE])).1

/-- C6: dropping a handle whose block has pre-decrement refcount greater
than 1 only decrements that refcount: the payload of the block is
untouched, every other address is untouched, and the payload remains
observable unchanged through every remaining handle (same address or
not). -/
theorem rc_drop_decrement_frame (h : RcHeap α) (r : Rc) (b : RcInner α)
    (hb : h[r.inner]? = some (some b)) (hrc : 1 < b.refcount) :
    Rc.dropHandle h r = some (h.set r.inner (some ⟨b.value, b.refcount - 1⟩)) ∧
    (h.set r.inner (some ⟨b.value, b.refcount - 1⟩))[r.inner]? =
      some (some ⟨b.value, b.refcount - 1⟩) ∧
    (∀ a : Nat, a ≠ r.inner →
      (h.set r.inner (some ⟨b.value, b.refcount - 1⟩))[a]? = h[a]?) ∧
    Rc.deref (h.set r.inner (some ⟨b.value, b.refcount - 1⟩)) ⟨r.inner⟩ = some b.value ∧
    (∀ r' : Rc, r'.inner ≠ r.inner →
      Rc.deref (h.set r.inner (some ⟨b.value, b.refcount - 1⟩)) r' = Rc.deref h r') := by
  have hlt : r.inner < h.length := by
    by_contra hge
    rw [List.getElem?_eq_none (by omega)] at hb
    exact Option.noConfusion hb
  have hne : b.refcount ≠ 1 := by omega
  refine ⟨by simp [Rc.dropHandle, hb, hne], List.getElem?_set_self hlt, ?_, ?_, ?_⟩
  · intro a ha
    exact List.getElem?_set_ne (fun e => ha e.symm)
  · simp [Rc.deref, List.getElem?_set_self hlt]
  · intro r' ha
    simp [Rc.deref, List.getElem?_set_ne (fun e => ha e.symm)]

/-- Witness for `rc_drop_decrement_frame` on a two-block heap. -/
theorem rc_drop_decrement_frame_witness :
    Rc.dropHandle [some ⟨(5 : Nat), 2⟩, some ⟨9, 1⟩] ⟨0⟩ =
      some ([some ⟨(5 : Nat), 2⟩, some ⟨9, 1⟩].set 0 (some ⟨5, 2 - 1⟩)) :=
  (rc_drop_decrement_frame [some ⟨(5 : Nat), 2⟩, some ⟨9, 1⟩] ⟨0⟩ ⟨5, 2⟩ rfl
    (by norm_num)).1

/-! ## Helper lemmas for Rc traces -/

theorem countAddr_nil (a : Nat) : countAddr [] a = 0 := rfl

theorem countAddr_cons (x : Nat) (t : List Nat) (a : Nat) :
    countAddr (x :: t) a = (if x = a then 1 else 0) + countAddr t a := rfl

theorem countAddr_append (l₁ l₂ : List Nat) (a : Nat) :
    countAddr (l₁ ++ l₂) a = countAddr l₁ a + countAddr l₂ a := by
  induction l₁ with
  | nil => simp [countAddr]
  | cons x t ih => simp [countAddr, ih]; omega

theorem countAddr_eraseIdx (l : List Nat) (i x a : Nat) (h : l[i]? = some x) :
    countAddr (l.eraseIdx i) a + (if x = a then 1 else 0) = countAddr l a := by
  induction l generalizing i with
  | nil => simp at h
  | cons y t ih =>
    cases i with
    | zero =>
      simp only [List.getElem?_cons_zero, Option.some.injEq] at h
      subst h
      simp [List.eraseIdx, countAddr]
      omega
    | succ j =>
      simp only [List.getElem?_cons_succ] at h
      have := ih j h
      simp [List.eraseIdx, countAddr]
      omega

theorem countAddr_eq_zero (l : List Nat) (a : Nat) (h : ∀ x ∈ l, x ≠ a) :
    countAddr l a = 0 := by
  induction l with
  | nil => rfl
  | cons y t ih =>
    have hy : y ≠ a := h y (List.mem_cons_self y t)
    simp [countAddr, hy]
    exact ih (fun x hx => h x (List.mem_cons_of_mem y hx))

theorem countAddr_le_length (l : List Nat) (a : Nat) : countAddr l a ≤ l.length := by
  induction l with
  | nil => simp [countAddr]
  | cons y t ih =>
    simp only [countAddr, List.length_cons]
    rcases Nat.lt_or_ge 0 (if y = a then 1 else 0) with hh | hh
    · have : (if y = a then 1 else 0) ≤ 1 := by split <;> omega
      omega
    · omega

theorem countAddr_replicate (n a : Nat) : countAddr (List.replicate n a) a = n := by
  induction n with
  | zero => rfl
  | succ m ih =>
    simp [List.replicate, countAddr, ih]
    omega

theorem countAddr_pos_of_getElem (l : List Nat) (i a : Nat) (h : l[i]? = some a) :
    1 ≤ countAddr l a := by
  induction l generalizing i with
  | nil => simp at h
  | cons y t ih =>
    cases i with
    | zero =>
      simp only [List.getElem?_cons_zero, Option.some.injEq] at h
      subst h
      simp [countAddr]
    | succ j =>
      simp only [List.getElem?_cons_succ] at h
      have := ih j h
      simp [countAddr]
      rcases Nat.lt_or_ge 0 (if y = a then 1 else 0) with hh | hh <;> omega

theorem lt_length_of_getElem_some {l : List β} {i : Nat} {x : β} (h : l[i]? = some x) :
    i < l.length := by
  by_contra hge
  rw [List.getElem?_eq_none (by omega)] at h
  exact Option.noConfusion h

theorem rcstate_init_inv : RcState.inv (RcState.init α) := by
  refine ⟨?_, ?_, ?_⟩ <;> simp [RcState.init]

theorem rcstate_step_inv (s s' : RcState α) (op : RcOp α)
    (hsz : s.handles.length + 1 < USIZE)
    (hinv : RcState.inv s) (hstep : RcState.step s op = some s') : RcState.inv s' := by
  obtain ⟨hbound, hlive, hfree⟩ := hinv
  cases op with
  | new v =>
    simp only [RcState.step, Rc.new, Option.some.injEq] at hstep
    subst hstep
    refine ⟨?_, ?_, ?_⟩
    · intro x hx
      simp only [List.mem_append, List.mem_singleton] at hx
      simp only [List.length_append, List.length_singleton]
      rcases hx with hx | rfl
      · have := hbound x hx; omega
      · omega
    · intro a b hab
      rcases Nat.lt_trichotomy a s.heap.length with hlt | rfl | hgt
      · rw [List.getElem?_append_left hlt] at hab
        have hL : s.heap.length ≠ a := by omega
        have := hlive a b hab
        simp only [RcState.liveCount] at this ⊢
        simpa [countAddr_append, countAddr, hL] using this
      · rw [List.getElem?_concat_length] at hab
        injection hab with hab
        injection hab with hab
        subst hab
        have h0 : countAddr s.handles s.heap.length = 0 :=
          countAddr_eq_zero _ _ (fun x hx => by have := hbound x hx; omega)
        simp [RcState.liveCount, countAddr_append, countAddr, h0]
      · rw [List.getElem?_eq_none (by simp; omega)] at hab
        exact Option.noConfusion hab
    · intro a hab
      rcases Nat.lt_trichotomy a s.heap.length with hlt | rfl | hgt
      · rw [List.getElem?_append_left hlt] at hab
        have hL : s.heap.length ≠ a := by omega
        have := hfree a hab
        simp only [RcState.liveCount] at this ⊢
        simpa [countAddr_append, countAddr, hL] using this
      · rw [List.getElem?_concat_length] at hab
        exact Option.noConfusion (Option.some.inj hab)
      · rw [List.getElem?_eq_none (by simp; omega)] at hab
        exact Option.noConfusion hab
  | clone i =>
    simp only [RcState.step] at hstep
    cases hh : s.handles[i]? with
    | none => rw [hh] at hstep; exact Option.noConfusion hstep
    | some a₀ =>
      rw [hh] at hstep
      cases hb : s.heap[a₀]? with
      | none => simp [Rc.clone, hb] at hstep
      | some ob =>
        cases ob with
        | none => simp [Rc.clone, hb] at hstep
        | some b =>
          simp only [Rc.clone, hb, Option.some.injEq] at hstep
          subst hstep
          have ha₀ : a₀ < s.heap.length := lt_length_of_getElem_some hb
          obtain ⟨hrc, hrc1⟩ := hlive a₀ b hb
          refine ⟨?_, ?_, ?_⟩
          · intro x hx
            simp only [List.mem_append, List.mem_singleton] at hx
            simp only [List.length_set]
            rcases hx with hx | rfl
            · exact hbound x hx
            · exact ha₀
          · intro a b' hab
            by_cases haa : a = a₀
            · subst haa
              rw [List.getElem?_set_self ha₀] at hab
              injection hab with hab
              injection hab with hab
              subst hab
              simp only [RcState.liveCount] at hrc ⊢
              have hle := countAddr_le_length s.handles a
              have hno : countAddr s.handles a + 1 < USIZE := by omega
              simp [countAddr_append, countAddr, hrc, Nat.mod_eq_of_lt hno]
            · rw [List.getElem?_set_ne (fun e => haa e.symm)] at hab
              have := hlive a b' hab
              have hne : a₀ ≠ a := fun e => haa e.symm
              simp only [RcState.liveCount] at this ⊢
              simpa [countAddr_append, countAddr, hne] using this
          · intro a hab
            by_cases haa : a = a₀
            · subst haa
              rw [List.getElem?_set_self ha₀] at hab
              exact Option.noConfusion (Option.some.inj hab)
            · rw [List.getElem?_set_ne (fun e => haa e.symm)] at hab
              have := hfree a hab
              have hne : a₀ ≠ a := fun e => haa e.symm
              simp only [RcState.liveCount] at this ⊢
              simpa [countAddr_append, countAddr, hne] using this
  | drop i =>
    simp only [RcState.step] at hstep
    cases hh : s.handles[i]? with
    | none => rw [hh] at hstep; exact Option.noConfusion hstep
    | some a₀ =>
      rw [hh] at hstep
      cases hb : s.heap[a₀]? with
      | none => simp [Rc.dropHandle, hb] at hstep
      | some ob =>
        cases ob with
        | none => simp [Rc.dropHandle, hb] at hstep
        | some b =>
          have ha₀ : a₀ < s.heap.length := lt_length_of_getElem_some hb
          obtain ⟨hrc, hrc1⟩ := hlive a₀ b hb
          simp only [RcState.liveCount] at hrc
          have herase := fun a => countAddr_eraseIdx s.handles i a₀ a hh
          by_cases hone : b.refcount = 1
          · simp only [Rc.dropHandle, hb, if_pos hone, Option.some.injEq] at hstep
            subst hstep
            refine ⟨?_, ?_, ?_⟩
            · intro x hx
              simp only [List.length_set]
              exact hbound x (List.mem_of_mem_eraseIdx hx)
            · intro a b' hab
              by_cases haa : a = a₀
              · subst haa
                rw [List.getElem?_set_self ha₀] at hab
                exact Option.noConfusion (Option.some.inj hab)
              · rw [List.getElem?_set_ne (fun e => haa e.symm)] at hab
                have := hlive a b' hab
                have h2 := herase a
                have hne : (if a₀ = a then 1 else 0) = 0 := by
                  rw [if_neg (fun e => haa e.symm)]
                simp only [RcState.liveCount] at this ⊢
                omega
            · intro a hab
              by_cases haa : a = a₀
              · subst haa
                have h2 := herase a
                rw [if_pos rfl] at h2
                simp only [RcState.liveCount]
                omega
              · rw [List.getElem?_set_ne (fun e => haa e.symm)] at hab
                have := hfree a hab
                have h2 := herase a
                have hne : (if a₀ = a then 1 else 0) = 0 := by
                  rw [if_neg (fun e => haa e.symm)]
                simp only [RcState.liveCount] at this ⊢
                omega
          · simp only [Rc.dropHandle, hb, if_neg hone, Option.some.injEq] at hstep
            subst hstep
            refine ⟨?_, ?_, ?_⟩
            · intro x hx
              simp only [List.length_set]
              exact hbound x (List.mem_of_mem_eraseIdx hx)
            · intro a b' hab
              by_cases haa : a = a₀
              · subst haa
                rw [List.getElem?_set_self ha₀] at hab
                injection hab with hab
                injection hab with hab
                subst hab
                have h2 := herase a
                rw [if_pos rfl] at h2
                simp only [RcState.liveCount]
                constructor <;> omega
              · rw [List.getElem?_set_ne (fun e => haa e.symm)] at hab
                have := hlive a b' hab
                have h2 := herase a
                have hne : (if a₀ = a then 1 else 0) = 0 := by
                  rw [if_neg (fun e => haa e.symm)]
                simp only [RcState.liveCount] at this ⊢
                omega
            · intro a hab
              by_cases haa : a = a₀
              · subst haa
                rw [List.getElem?_set_self ha₀] at hab
                exact Option.noConfusion (Option.some.inj hab)
              · rw [List.getElem?_set_ne (fun e => haa e.symm)] at hab
                have := hfree a hab
                have h2 := herase a
                have hne : (if a₀ = a then 1 else 0) = 0 := by
                  rw [if_neg (fun e => haa e.symm)]
                simp only [RcState.liveCount] at this ⊢
                omega

theorem rcstate_step_handles_le (s s' : RcState α) (op : RcOp α)
    (hstep : RcState.step s op = some s') :
    s'.handles.length ≤ s.handles.length + 1 := by
  cases op with
  | new v =>
    simp only [RcState.step, Rc.new, Option.some.injEq] at hstep
    subst hstep
    simp
  | clone i =>
    simp only [RcState.step] at hstep
    cases hh : s.handles[i]? with
    | none => rw [hh] at hstep; exact Option.noConfusion hstep
    | some a₀ =>
      rw [hh] at hstep
      cases hb : s.heap[a₀]? with
      | none => simp [Rc.clone, hb] at hstep
      | some ob =>
        cases ob with
        | none => simp [Rc.clone, hb] at hstep
        | some b =>
          simp only [Rc.clone, hb, Option.some.injEq] at hstep
          subst hstep
          simp
  | drop i =>
    simp only [RcState.step] at hstep
    cases hh : s.handles[i]? with
    | none => rw [hh] at hstep; exact Option.noConfusion hstep
    | some a₀ =>
      rw [hh] at hstep
      cases hb : s.heap[a₀]? with
      | none => simp [Rc.dropHandle, hb] at hstep
      | some ob =>
        cases ob with
        | none => simp [Rc.dropHandle, hb] at hstep
        | some b =>
          by_cases hone : b.refcount = 1
          · simp only [Rc.dropHandle, hb, if_pos hone, Option.some.injEq] at hstep
            subst hstep
            have := (List.eraseIdx_sublist s.handles i).length_le
            simpa using by omega
          · simp only [Rc.dropHandle, hb, if_neg hone, Option.some.injEq] at hstep
            subst hstep
            have := (List.eraseIdx_sublist s.handles i).length_le
            simpa using by omega

theorem rcstate_run_inv (ops : List (RcOp α)) (s s' : RcState α)
    (hsz : s.handles.length + ops.length < USIZE)
    (hinv : RcState.inv s) (hrun : RcState.run s ops = some s') : RcState.inv s' := by
  induction ops generalizing s with
  | nil =>
    simp only [RcState.run, Option.some.injEq] at hrun
    subst hrun
    exact hinv
  | cons op rest ih =>
    simp only [RcState.run] at hrun
    simp only [List.length_cons] at hsz
    cases hs : RcState.step s op with
    | none => rw [hs] at hrun; exact Option.noConfusion hrun
    | some s₁ =>
      rw [hs] at hrun
      have hle := rcstate_step_handles_le s s₁ op hs
      exact ih s₁ (by omega)
        (rcstate_step_inv s s₁ op (by omega) hinv hs) hrun

theorem rcstate_dealloc_iff (s s' : RcState α) (op : RcOp α)
    (hinv : RcState.inv s) (hstep : RcState.step s op = some s') :
    (∀ a : Nat, s.heap[a]? = some none → s'.heap[a]? = some none) ∧
    (∀ (a : Nat) (b : RcInner α), s.heap[a]? = some (some b) →
      (s'.heap[a]? = some none ↔
        ∃ i, op = RcOp.drop i ∧ s.handles[i]? = some a ∧ s.liveCount a = 1)) := by
  obtain ⟨hbound, hlive, hfree⟩ := hinv
  cases op with
  | new v =>
    simp only [RcState.step, Rc.new, Option.some.injEq] at hstep
    subst hstep
    constructor
    · intro a ha
      have halt : a < s.heap.length := lt_length_of_getElem_some ha
      rw [List.getElem?_append_left halt]
      exact ha
    · intro a b hb
      have halt : a < s.heap.length := lt_length_of_getElem_some hb
      constructor
      · intro hnone
        rw [List.getElem?_append_left halt, hb] at hnone
        exact absurd (Option.some.inj hnone) (by simp)
      · rintro ⟨i, hop, -, -⟩
        exact RcOp.noConfusion hop
  | clone j =>
    simp only [RcState.step] at hstep
    cases hh : s.handles[j]? with
    | none => rw [hh] at hstep; exact Option.noConfusion hstep
    | some a₀ =>
      rw [hh] at hstep
      cases hb₀ : s.heap[a₀]? with
      | none => simp [Rc.clone, hb₀] at hstep
      | some ob =>
        cases ob with
        | none => simp [Rc.clone, hb₀] at hstep
        | some b₀ =>
          simp only [Rc.clone, hb₀, Option.some.injEq] at hstep
          subst hstep
          have ha₀ : a₀ < s.heap.length := lt_length_of_getElem_some hb₀
          constructor
          · intro a ha
            have hne : a₀ ≠ a := by
              intro e
              subst e
              rw [hb₀] at ha
              exact Option.noConfusion (Option.some.inj ha)
            rw [List.getElem?_set_ne hne]
            exact ha
          · intro a b hb
            constructor
            · intro hnone
              by_cases haa : a = a₀
              · subst haa
                rw [List.getElem?_set_self ha₀] at hnone
                exact absurd (Option.some.inj hnone) (by simp)
              · rw [List.getElem?_set_ne (fun e => haa e.symm), hb] at hnone
                exact absurd (Option.some.inj hnone) (by simp)
            · rintro ⟨i, hop, -, -⟩
              exact RcOp.noConfusion hop
  | drop j =>
    simp only [RcState.step] at hstep
    cases hh : s.handles[j]? with
    | none => rw [hh] at hstep; exact Option.noConfusion hstep
    | some a₀ =>
      rw [hh] at hstep
      cases hb₀ : s.heap[a₀]? with
      | none => simp [Rc.dropHandle, hb₀] at hstep
      | some ob =>
        cases ob with
        | none => simp [Rc.dropHandle, hb₀] at hstep
        | some b₀ =>
          have ha₀ : a₀ < s.heap.length := lt_length_of_getElem_some hb₀
          by_cases hone : b₀.refcount = 1
          · simp only [Rc.dropHandle, hb₀, if_pos hone, Option.some.injEq] at hstep
            subst hstep
            constructor
            · intro a ha
              have hne : a₀ ≠ a := by
                intro e
                subst e
                rw [hb₀] at ha
                exact Option.noConfusion (Option.some.inj ha)
              rw [List.getElem?_set_ne hne]
              exact ha
            · intro a b hb
              by_cases haa : a = a₀
              · subst haa
                have hbb : b = b₀ :=
                  Option.some.inj (Option.some.inj (hb.symm.trans hb₀))
                constructor
                · intro _
                  refine ⟨j, rfl, hh, ?_⟩
                  have hcnt := (hlive a b hb).1
                  rw [hbb] at hcnt
                  simp only [RcState.liveCount] at hcnt ⊢
                  omega
                · intro _
                  rw [List.getElem?_set_self ha₀]
              · constructor
                · intro hnone
                  rw [List.getElem?_set_ne (fun e => haa e.symm), hb] at hnone
                  exact absurd (Option.some.inj hnone) (by simp)
                · rintro ⟨i, hop, hi, hcnt⟩
                  injection hop with hij
                  subst hij
                  rw [hh] at hi
                  exact absurd (Option.some.inj hi).symm haa
          · simp only [Rc.dropHandle, hb₀, if_neg hone, Option.some.injEq] at hstep
            subst hstep
            constructor
            · intro a ha
              have hne : a₀ ≠ a := by
                intro e
                subst e
                rw [hb₀] at ha
                exact Option.noConfusion (Option.some.inj ha)
              rw [List.getElem?_set_ne hne]
              exact ha
            · intro a b hb
              constructor
              · intro hnone
                by_cases haa : a = a₀
                · subst haa
                  rw [List.getElem?_set_self ha₀] at hnone
                  exact absurd (Option.some.inj hnone) (by simp)
                · rw [List.getElem?_set_ne (fun e => haa e.symm), hb] at hnone
                  exact absurd (Option.some.inj hnone) (by simp)
              · rintro ⟨i, hop, hi, hcnt⟩
                injection hop with hij
                subst hij
                rw [hh] at hi
                have haa : a₀ = a := Option.some.inj hi
                subst haa
                have hc := (hlive a₀ b₀ hb₀).1
                simp only [RcState.liveCount] at hc hcnt
                exact absurd (by omega : b₀.refcount = 1) hone

/-- C1 (amended): for every sequence of fewer than `2 ^ 64`
`new`/`clone`/drop operations executed single-threaded from the empty
state — the bound keeps the live-handle count below the `usize` wrap of
the refcount, which the overflow counterexample shows is necessary —
every reachable state satisfies the refcount invariant: each live
block's refcount equals the number of live handles aliasing it, and a
deallocated block has no live handle (so it can never be accessed again,
every access going through a live handle); and in any next step a live
block is deallocated exactly when the dropped handle is the last one
aliasing it (refcount transition 1 → 0); a block already deallocated
stays deallocated, so deallocation happens exactly once. -/
theorem rc_refcount_trace_invariant (ops : List (RcOp α)) (s : RcState α)
    (hsz : ops.length < USIZE)
    (hrun : RcState.run (RcState.init α) ops = some s) :
    RcState.inv s ∧
    ∀ op s', RcState.step s op = some s' →
      (∀ a : Nat, s.heap[a]? = some none → s'.heap[a]? = some none) ∧
      (∀ (a : Nat) (b : RcInner α), s.heap[a]? = some (some b) →
        (s'.heap[a]? = some none ↔
          ∃ i, op = RcOp.drop i ∧ s.handles[i]? = some a ∧ s.liveCount a = 1)) := by
  have hinv := rcstate_run_inv ops (RcState.init α) s
    (by simpa [RcState.init] using hsz) rcstate_init_inv hrun
  exact ⟨hinv, fun op s' hstep => rcstate_dealloc_iff s s' op hinv hstep⟩

/-- Witness for `rc_refcount_trace_invariant` on the trace
`new 3; clone; drop`: the surviving state satisfies the invariant. -/
theorem rc_refcount_trace_invariant_witness :
    RcState.inv (⟨[some ⟨(3 : Nat), 1⟩], [0]⟩ : RcState Nat) :=
  (rc_refcount_trace_invariant [RcOp.new 3, RcOp.clone 0, RcOp.drop 1]
    ⟨[some ⟨3, 1⟩], [0]⟩ (by norm_num [USIZE]) rfl).1

theorem rcstate_run_nil_eq (s : RcState α) : RcState.run s [] = some s := rfl

theorem rcstate_run_bind_some (s : RcState α) (rest : List (RcOp α)) :
    Option.bind (some s) (fun s₁ => RcState.run s₁ rest) = RcState.run s rest := rfl

theorem rcstate_liveCount_eq (s : RcState α) (a : Nat) :
    RcState.liveCount s a = countAddr s.handles a := rfl

theorem rcstate_run_cons (s : RcState α) (op : RcOp α) (rest : List (RcOp α)) :
    RcState.run s (op :: rest) =
      Option.bind (RcState.step s op) (fun s₁ => RcState.run s₁ rest) := by
  simp only [RcState.run]
  cases RcState.step s op <;> rfl

theorem rcstate_run_append (l₁ l₂ : List (RcOp α)) (s : RcState α) :
    RcState.run s (l₁ ++ l₂) =
      Option.bind (RcState.run s l₁) (fun s₁ => RcState.run s₁ l₂) := by
  induction l₁ generalizing s with
  | nil => rfl
  | cons op rest ih =>
    simp only [List.cons_append, RcState.run]
    cases hs : RcState.step s op with
    | none => rfl
    | some s₁ => exact ih s₁

theorem rcstate_run_clones (k : Nat) :
    ∀ rc : Nat, rc < USIZE → ∀ (v : Nat) (hs : List Nat),
      RcState.run ⟨[some ⟨v, rc⟩], 0 :: hs⟩ (List.replicate k (RcOp.clone 0)) =
        some ⟨[some ⟨v, (rc + k) % USIZE⟩], 0 :: (hs ++ List.replicate k 0)⟩ := by
  induction k with
  | zero =>
    intro rc hrc v hs
    simp [RcState.run, List.replicate, Nat.mod_eq_of_lt hrc]
  | succ m ih =>
    intro rc hrc v hs
    have hstep : RcState.step ⟨[some ⟨v, rc⟩], 0 :: hs⟩ (RcOp.clone 0) =
        some ⟨[some ⟨v, (rc + 1) % USIZE⟩], 0 :: (hs ++ [0])⟩ := by
      simp [RcState.step, Rc.clone]
    rw [List.replicate_succ]
    simp only [RcState.run, hstep]
    have hU : 0 < USIZE := by norm_num [USIZE]
    have h2 := ih ((rc + 1) % USIZE) (Nat.mod_lt _ hU) v (hs ++ [0])
    rw [h2]
    have harith : ((rc + 1) % USIZE + m) % USIZE = (rc + (m + 1)) % USIZE := by
      rw [Nat.mod_add_mod]
      congr 1
      omega
    rw [harith, List.append_assoc]
    simp [List.replicate_succ]

theorem rcstate_step_clone0 (v rc : Nat) (hs : List Nat) :
    RcState.step ⟨[some ⟨v, rc⟩], 0 :: hs⟩ (RcOp.clone 0) =
      some ⟨[some ⟨v, (rc + 1) % USIZE⟩], 0 :: (hs ++ [0])⟩ := by
  simp [RcState.step, Rc.clone]

theorem rcstate_step_drop0_last (v : Nat) (hs : List Nat) :
    RcState.step ⟨[some ⟨v, 1⟩], 0 :: hs⟩ (RcOp.drop 0) =
      some ⟨[none], hs⟩ := by
  simp [RcState.step, Rc.dropHandle, List.eraseIdx]

/-- C1 counterexample: the claim quantifies over *every* operation
sequence, but the `usize` refcount wraps.  Starting from `new 0`,
performing `usize::MAX` clones of the first handle wraps the refcount of
the still-live block to 0 while `2 ^ 64` live handles alias it — the
refcount no longer equals the number of live handles.  One more clone
makes the wrapped refcount 1, and dropping a single handle then
deallocates the block while `2 ^ 64` live handles still point at it —
the payload is deallocated although the dropped handle was not the last
one. -/
theorem rc_refcount_overflow_counterexample :
    RcState.run (RcState.init Nat)
        (RcOp.new 0 :: List.replicate (USIZE - 1) (RcOp.clone 0)) =
      some ⟨[some ⟨0, 0⟩], 0 :: List.replicate (USIZE - 1) 0⟩ ∧
    RcState.liveCount
        (⟨[some ⟨0, 0⟩], 0 :: List.replicate (USIZE - 1) 0⟩ : RcState Nat) 0 = USIZE ∧
    RcState.run (RcState.init Nat)
        ((RcOp.new 0 :: List.replicate (USIZE - 1) (RcOp.clone 0)) ++
          [RcOp.clone 0, RcOp.drop 0]) =
      some ⟨[none], List.replicate (USIZE - 1) 0 ++ [0]⟩ ∧
    RcState.liveCount
        (⟨[none], List.replicate (USIZE - 1) 0 ++ [0]⟩ : RcState Nat) 0 = USIZE := by
  have hU1 : 1 < USIZE := by norm_num [USIZE]
  have hstep0 : RcState.step (RcState.init Nat) (RcOp.new 0) =
      some ⟨[some ⟨0, 1⟩], [0]⟩ := by
    simp [RcState.step, RcState.init, Rc.new]
  have h1 : RcState.run (RcState.init Nat)
      (RcOp.new 0 :: List.replicate (USIZE - 1) (RcOp.clone 0)) =
      some ⟨[some ⟨0, 0⟩], 0 :: List.replicate (USIZE - 1) 0⟩ := by
    rw [rcstate_run_cons, hstep0, rcstate_run_bind_some]
    rw [rcstate_run_clones (USIZE - 1) 1 hU1 0 []]
    have harith : (1 + (USIZE - 1)) % USIZE = 0 := by norm_num [USIZE]
    rw [harith, List.nil_append]
  have h2 : RcState.liveCount
      (⟨[some ⟨0, 0⟩], 0 :: List.replicate (USIZE - 1) 0⟩ : RcState Nat) 0 = USIZE := by
    rw [rcstate_liveCount_eq]
    dsimp only
    rw [countAddr_cons, countAddr_replicate]
    norm_num [USIZE]
  have h3 : RcState.run (RcState.init Nat)
      ((RcOp.new 0 :: List.replicate (USIZE - 1) (RcOp.clone 0)) ++
        [RcOp.clone 0, RcOp.drop 0]) =
      some ⟨[none], List.replicate (USIZE - 1) 0 ++ [0]⟩ := by
    have harith2 : (0 + 1) % USIZE = 1 := by norm_num [USIZE]
    rw [rcstate_run_append, h1, rcstate_run_bind_some]
    rw [rcstate_run_cons, rcstate_step_clone0, harith2, rcstate_run_bind_some]
    rw [rcstate_run_cons, rcstate_step_drop0_last, rcstate_run_bind_some]
    rw [rcstate_run_nil_eq]
  have h4 : RcState.liveCount
      (⟨[none], List.replicate (USIZE - 1) 0 ++ [0]⟩ : RcState Nat) 0 = USIZE := by
    rw [rcstate_liveCount_eq]
    dsimp only
    rw [countAddr_append, countAddr_replicate, countAddr_cons, countAddr_nil]
    norm_num [USIZE]
  exact ⟨h1, h2, h3, h4⟩

/-! ## Helper lemmas for the Mutex interleaving model -/

theorem sumBy_set (f : ThreadSt → Nat) (l : List ThreadSt) (i : Nat) (t t' : ThreadSt)
    (h : l[i]? = some t) : sumBy f (l.set i t') + f t = sumBy f l + f t' := by
  induction l generalizing i with
  | nil => simp at h
  | cons y ts ih =>
    cases i with
    | zero =>
      simp only [List.getElem?_cons_zero, Option.some.injEq] at h
      subst h
      simp only [List.set, sumBy]
      omega
    | succ j =>
      simp only [List.getElem?_cons_succ] at h
      have := ih j h
      simp only [List.set, sumBy]
      omega

theorem sumBy_le_elem (f : ThreadSt → Nat) (l : List ThreadSt) (i : Nat) (t : ThreadSt)
    (h : l[i]? = some t) : f t ≤ sumBy f l := by
  induction l generalizing i with
  | nil => simp at h
  | cons y ts ih =>
    cases i with
    | zero =>
      simp only [List.getElem?_cons_zero, Option.some.injEq] at h
      subst h
      simp only [sumBy]
      omega
    | succ j =>
      simp only [List.getElem?_cons_succ] at h
      have := ih j h
      simp only [sumBy]
      omega

theorem sumBy_le_one_unique (f : ThreadSt → Nat) (l : List ThreadSt) (i j : Nat)
    (t u : ThreadSt) (hi : l[i]? = some t) (hj : l[j]? = some u) (hij : i ≠ j)
    (h1 : sumBy f l ≤ 1) (hf : f t = 1) : f u = 0 := by
  induction l generalizing i j with
  | nil => simp at hi
  | cons y ts ih =>
    cases i with
    | zero =>
      simp only [List.getElem?_cons_zero, Option.some.injEq] at hi
      subst hi
      cases j with
      | zero => exact absurd rfl hij
      | succ j' =>
        simp only [List.getElem?_cons_succ] at hj
        have hle := sumBy_le_elem f ts j' u hj
        simp only [sumBy] at h1
        omega
    | succ i' =>
      simp only [List.getElem?_cons_succ] at hi
      cases j with
      | zero =>
        simp only [List.getElem?_cons_zero, Option.some.injEq] at hj
        subst hj
        have hle := sumBy_le_elem f ts i' t hi
        simp only [sumBy] at h1
        omega
      | succ j' =>
        simp only [List.getElem?_cons_succ] at hj
        have hij' : i' ≠ j' := fun e => hij (by rw [e])
        have h1' : sumBy f ts ≤ 1 := by simp only [sumBy] at h1; omega
        exact ih i' j' hi hj hij' h1'

theorem sumBy_replicate (f : ThreadSt → Nat) (n : Nat) (t : ThreadSt) :
    sumBy f (List.replicate n t) = n * f t := by
  induction n with
  | zero => simp [sumBy, List.replicate]
  | succ m ih =>
    simp only [List.replicate, sumBy, ih]
    ring

theorem sumBy_all_eq (f : ThreadSt → Nat) (l : List ThreadSt) (t₀ : ThreadSt)
    (h : ∀ t ∈ l, t = t₀) : sumBy f l = l.length * f t₀ := by
  induction l with
  | nil => simp [sumBy]
  | cons y ts ih =>
    have hy : y = t₀ := h y (List.mem_cons_self y ts)
    subst hy
    simp only [sumBy, List.length_cons]
    rw [ih (fun t ht => h t (List.mem_cons_of_mem y ht))]
    ring


theorem mutex_step_inv (N M : Nat) (s s' : MutexSt) (hstep : MutexStep M s s')
    (hinv : MutexInv N s) : MutexInv N s' := by
  obtain ⟨hlen, hv, hcs, hlock, hwr⟩ := hinv
  cases hstep with
  | acquire i d ht hd hl =>
    have hilen : i < s.threads.length := lt_length_of_getElem_some ht
    have h1 := sumBy_set ThreadSt.done s.threads i ⟨d, ThreadPc.idle⟩ ⟨d, ThreadPc.rd⟩ ht
    have h2 := sumBy_set unlWeight s.threads i ⟨d, ThreadPc.idle⟩ ⟨d, ThreadPc.rd⟩ ht
    have h3 := sumBy_set csWeight s.threads i ⟨d, ThreadPc.idle⟩ ⟨d, ThreadPc.rd⟩ ht
    simp only [ThreadSt.done, unlWeight, csWeight] at h1 h2 h3
    rw [hl] at hlock
    simp only [Bool.false_eq_true, false_iff] at hlock
    refine ⟨?_, ?_, ?_, ?_, ?_⟩
    · dsimp only
      simpa using hlen
    · dsimp only
      omega
    · dsimp only
      omega
    · dsimp only
      exact ⟨fun _ => by omega, fun _ => rfl⟩
    · intro i' d' t' h'
      dsimp only at h' ⊢
      by_cases hii : i' = i
      · subst hii
        rw [List.getElem?_set_self hilen] at h'
        injection h' with h'
        injection h' with hd' hpc
        exact ThreadPc.noConfusion hpc
      · rw [List.getElem?_set_ne (fun e => hii e.symm)] at h'
        exact hwr i' d' t' h'
  | readv i d ht =>
    have hilen : i < s.threads.length := lt_length_of_getElem_some ht
    have h1 := sumBy_set ThreadSt.done s.threads i ⟨d, ThreadPc.rd⟩ ⟨d, ThreadPc.wr s.v⟩ ht
    have h2 := sumBy_set unlWeight s.threads i ⟨d, ThreadPc.rd⟩ ⟨d, ThreadPc.wr s.v⟩ ht
    have h3 := sumBy_set csWeight s.threads i ⟨d, ThreadPc.rd⟩ ⟨d, ThreadPc.wr s.v⟩ ht
    simp only [ThreadSt.done, unlWeight, csWeight] at h1 h2 h3
    refine ⟨?_, ?_, ?_, ?_, ?_⟩
    · dsimp only
      simpa using hlen
    · dsimp only
      omega
    · dsimp only
      omega
    · dsimp only
      have hceq : sumBy csWeight (s.threads.set i ⟨d, ThreadPc.wr s.v⟩) =
          sumBy csWeight s.threads := by omega
      rw [hceq]
      exact hlock
    · intro i' d' t' h'
      dsimp only at h' ⊢
      by_cases hii : i' = i
      · subst hii
        rw [List.getElem?_set_self hilen] at h'
        injection h' with h'
        injection h' with hd' hpc
        injection hpc with hpc
        exact hpc.symm
      · rw [List.getElem?_set_ne (fun e => hii e.symm)] at h'
        exact hwr i' d' t' h'
  | writev i d t ht =>
    have hilen : i < s.threads.length := lt_length_of_getElem_some ht
    have hvt : t = s.v := hwr i d t ht
    have h1 := sumBy_set ThreadSt.done s.threads i ⟨d, ThreadPc.wr t⟩ ⟨d, ThreadPc.unl⟩ ht
    have h2 := sumBy_set unlWeight s.threads i ⟨d, ThreadPc.wr t⟩ ⟨d, ThreadPc.unl⟩ ht
    have h3 := sumBy_set csWeight s.threads i ⟨d, ThreadPc.wr t⟩ ⟨d, ThreadPc.unl⟩ ht
    simp only [ThreadSt.done, unlWeight, csWeight] at h1 h2 h3
    refine ⟨?_, ?_, ?_, ?_, ?_⟩
    · dsimp only
      simpa using hlen
    · dsimp only
      omega
    · dsimp only
      omega
    · dsimp only
      have hceq : sumBy csWeight (s.threads.set i ⟨d, ThreadPc.unl⟩) =
          sumBy csWeight s.threads := by omega
      rw [hceq]
      exact hlock
    · intro i' d' t' h'
      dsimp only at h' ⊢
      by_cases hii : i' = i
      · subst hii
        rw [List.getElem?_set_self hilen] at h'
        injection h' with h'
        injection h' with hd' hpc
        exact ThreadPc.noConfusion hpc
      · rw [List.getElem?_set_ne (fun e => hii e.symm)] at h'
        have h0 := sumBy_le_one_unique csWeight s.threads i i' ⟨d, ThreadPc.wr t⟩
          ⟨d', ThreadPc.wr t'⟩ ht h' (fun e => hii e.symm) hcs (by simp [csWeight])
        simp [csWeight] at h0
  | release i d ht =>
    have hilen : i < s.threads.length := lt_length_of_getElem_some ht
    have h1 := sumBy_set ThreadSt.done s.threads i ⟨d, ThreadPc.unl⟩ ⟨d + 1, ThreadPc.idle⟩ ht
    have h2 := sumBy_set unlWeight s.threads i ⟨d, ThreadPc.unl⟩ ⟨d + 1, ThreadPc.idle⟩ ht
    have h3 := sumBy_set csWeight s.threads i ⟨d, ThreadPc.unl⟩ ⟨d + 1, ThreadPc.idle⟩ ht
    simp only [ThreadSt.done, unlWeight, csWeight] at h1 h2 h3
    refine ⟨?_, ?_, ?_, ?_, ?_⟩
    · dsimp only
      simpa using hlen
    · dsimp only
      omega
    · dsimp only
      omega
    · dsimp only
      constructor
      · intro h
        exact Bool.noConfusion h
      · intro h
        exact absurd h (by omega)
    · intro i' d' t' h'
      dsimp only at h' ⊢
      by_cases hii : i' = i
      · subst hii
        rw [List.getElem?_set_self hilen] at h'
        injection h' with h'
        injection h' with hd' hpc
        exact ThreadPc.noConfusion hpc
      · rw [List.getElem?_set_ne (fun e => hii e.symm)] at h'
        exact hwr i' d' t' h'

theorem mutex_reach_inv (N M : Nat) (s : MutexSt) (h : MutexReach N M s) :
    MutexInv N s := by
  induction h with
  | init =>
    refine ⟨by simp, ?_, ?_, ?_, ?_⟩
    · dsimp only
      rw [sumBy_replicate, sumBy_replicate]
      simp [unlWeight]
    · dsimp only
      rw [sumBy_replicate]
      simp [csWeight]
    · dsimp only
      rw [sumBy_replicate]
      simp [csWeight]
    · intro i d t h'
      dsimp only at h'
      rw [List.getElem?_replicate] at h'
      by_cases hi : i < N
      · rw [if_pos hi] at h'
        injection h' with h'
        injection h' with hd hpc
        exact ThreadPc.noConfusion hpc
      · rw [if_neg hi] at h'
        exact Option.noConfusion h'
  | step s s' hr hst ih => exact mutex_step_inv N M s s' hst ih

/-- C4: in the interleaving model of the spin lock (each atomic
instruction one step; the `AcqRel`/`Release` pairing on the flag is what
justifies reading the payload as a single shared variable across
critical sections), when `N` threads each perform `M` iterations of
`with_lock(|v| *v += 1)`, every reachable state has at most one thread
inside the critical section, and any reachable state in which all `N`
threads have completed their `M` iterations has counter exactly
`N * M`. -/
theorem mutex_counter_exact (N M : Nat) (hN : 1 ≤ N) (hM : 1 ≤ M) (s : MutexSt)
    (hreach : MutexReach N M s) :
    sumBy csWeight s.threads ≤ 1 ∧
    ((∀ t ∈ s.threads, t = ⟨M, ThreadPc.idle⟩) → s.v = N * M) := by
  obtain ⟨hlen, hv, hcs, -, -⟩ := mutex_reach_inv N M s hreach
  refine ⟨hcs, ?_⟩
  intro hall
  have h1 := sumBy_all_eq ThreadSt.done s.threads ⟨M, ThreadPc.idle⟩ hall
  have h2 := sumBy_all_eq unlWeight s.threads ⟨M, ThreadPc.idle⟩ hall
  simp only [ThreadSt.done] at h1
  simp only [unlWeight] at h2
  rw [hv, h1, h2, hlen]
  ring

/-- Witness for `mutex_counter_exact`: one thread, one iteration, run to
completion through acquire, read, write, release; the final counter is
`1 * 1`. -/
theorem mutex_counter_exact_witness :
    (⟨false, 1, [⟨1, ThreadPc.idle⟩]⟩ : MutexSt).v = 1 * 1 := by
  have r0 : MutexReach 1 1 ⟨false, 0, [⟨0, ThreadPc.idle⟩]⟩ := @MutexReach.init 1 1
  have r1 : MutexReach 1 1 ⟨true, 0, [⟨0, ThreadPc.rd⟩]⟩ :=
    MutexReach.step _ _ r0 (MutexStep.acquire _ 0 0 rfl (by decide) rfl)
  have r2 : MutexReach 1 1 ⟨true, 0, [⟨0, ThreadPc.wr 0⟩]⟩ :=
    MutexReach.step _ _ r1 (MutexStep.readv _ 0 0 rfl)
  have r3 : MutexReach 1 1 ⟨true, 1, [⟨0, ThreadPc.unl⟩]⟩ :=
    MutexReach.step _ _ r2 (MutexStep.writev _ 0 0 0 rfl)
  have r4 : MutexReach 1 1 ⟨false, 1, [⟨1, ThreadPc.idle⟩]⟩ :=
    MutexReach.step _ _ r3 (MutexStep.release _ 0 0 rfl)
  exact (mutex_counter_exact 1 1 (by decide) (by decide) _ r4).2 (by decide)
